import Mathlib

/-!
Verification development for the panhub search-orchestration core.

Shallow embeddings of:
* the result merger `mergeMergedByType` (utils/merger module);
* the bounded in-memory cache `MemoryCache` (server/core/cache/memoryCache.ts);
* the plugin registry `PluginManager` (server/core/plugins/manager.ts);
* a spec-modelled orchestrator fragment for per-plugin failure isolation
  (the `SearchService` implementation file is not among the provided sources).

JavaScript `Map`s and plain objects are modelled as association lists that
keep insertion order, which is exactly the iteration order the code relies
on for its LRU discipline and for `Object.keys`.  JavaScript numbers are
modelled as `Nat`/`Int` where the code only ever holds integers, and as `Rat`
for the two places where `memoryCache.ts` computes fractional values
(`memoryUsage / maxMemoryBytes` and `memoryUsage * 0.1`); rational arithmetic
is exact where binary floating point rounds, but no claim settled here
depends on values where the two differ, and division by zero yields `0` in
`Rat` which, like `NaN` in JavaScript, fails the `>` comparisons involved.
-/

set_option autoImplicit false

namespace PanHub

/-! ## Result merger (mergeMergedByType)

Embedding of the merger module.  A `MergedLinks` value is a JavaScript
object mapping storage-type tags to arrays of links; it is modelled as an
insertion-ordered association list with (for genuine objects) pairwise
distinct keys. -/

structure Link where
  url : String
  password : String
  title : String
deriving DecidableEq, Repr

abbrev MergedLinks := List (String × List Link)

/-- Keys of a `MergedLinks` object, in insertion order (`Object.keys`). -/
def typeKeys (m : MergedLinks) : List String :=
  m.map Prod.fst

/-- Reading `m[t] || []` on a JavaScript object. -/
def lookupType (m : MergedLinks) (t : String) : List Link :=
  match m.find? (fun kv => kv.1 == t) with
  | some kv => kv.2
  | none => []

/-- Key-presence test `t in m`. -/
def hasType (m : MergedLinks) (t : String) : Bool :=
  m.any (fun kv => kv.1 == t)

/-- Property assignment `m[t] = v` on a JavaScript object: an existing key
keeps its position in the key order, a new key is appended at the end. -/
def setType (m : MergedLinks) (t : String) (v : List Link) : MergedLinks :=
  if hasType m t then m.map (fun kv => if kv.1 == t then (t, v) else kv)
  else m ++ [(t, v)]

/-- The inner `for (const item of next)` loop of `mergeMergedByType`:
`seen` is the `Set` of URLs already present, `mergedArr` the array being
extended by `push`. -/
def mergeLoop (seen : List String) (mergedArr : List Link) : List Link → List Link
  | [] => mergedArr
  | item :: rest =>
    if seen.contains item.url then mergeLoop seen mergedArr rest
    else mergeLoop (item.url :: seen) (mergedArr ++ [item]) rest

/-- One iteration of the outer `for (const type of Object.keys(incoming))`
loop: read `out[type] || []`, seed `seen` with its URLs, run the inner loop
over `incoming[type] || []`, and write the merged array back to `out`. -/
def mergeStep (out : MergedLinks) (kv : String × List Link) : MergedLinks :=
  let existed := lookupType out kv.1
  let next := kv.2
  setType out kv.1 (mergeLoop (existed.map (fun x => x.url)) existed next)

/-- Embedding of `mergeMergedByType(target, incoming)` from the merger module.
`incoming` may be absent (`undefined`), in which case `target` is returned. -/
def mergeMergedByType (target : MergedLinks) (incoming : Option MergedLinks) :
    MergedLinks :=
  match incoming with
  | none => target
  | some inc => inc.foldl mergeStep target

/-- Specification-shaped companion of the inner loop: the sublist of `next`
whose URLs are neither in `seen` nor duplicated earlier in `next` itself,
in `next`'s order.  Used to state what `mergeLoop` appends. -/
def filterNew (seen : List String) : List Link → List Link
  | [] => []
  | item :: rest =>
    if seen.contains item.url then filterNew seen rest
    else item :: filterNew (item.url :: seen) rest

/-- State-passing rendering of a call to `mergeMergedByType`: the returned
triple is (result, contents of `target` after the call, contents of
`incoming` after the call).  The source only reads its arguments: `out`
starts as the spread copy of `target`, `mergedArr` as a spread copy of
`existed`, and `seen` is a fresh `Set`; every write (`out[type] = ...`,
`mergedArr.push`, `seen.add`) hits one of those fresh locals, so the
argument cells are returned unchanged. -/
def mergeMergedByTypeCall (target : MergedLinks) (incoming : Option MergedLinks) :
    MergedLinks × MergedLinks × Option MergedLinks :=
  match incoming with
  | none => (target, target, none)
  | some inc => (inc.foldl mergeStep target, target, some inc)

/-! ## Memory cache (MemoryCache)

Embedding of `src/server/core/cache/memoryCache.ts`.  The backing
`Map<string, CacheRecord>` is an insertion-ordered association list with
pairwise distinct keys; `Date.now()` is passed in explicitly as `now`. -/

/-- Values storable in the cache, as far as `estimateSize` can distinguish
them.  An object carries the UTF-16 length of its `JSON.stringify` output
(`0` standing for a falsy/failed stringification, which the code maps to
the 64-byte fallback). -/
inductive JSValue where
  | nullOrUndef
  | str (s : String)
  | num (n : Int)
  | boolean (b : Bool)
  | obj (jsonLength : Nat)
deriving DecidableEq, Repr

/-- Embedding of `MemoryCache.estimateSize`.  String lengths count UTF-16 units in
JavaScript and characters here; they agree on every input used below. -/
def estimateSize : JSValue → Nat
  | .nullOrUndef => 8
  | .str s => s.length * 2
  | .num _ => 8
  | .boolean _ => 4
  | .obj jsonLength => if jsonLength = 0 then 64 else jsonLength * 2

/-- Embedding of `CacheRecord<T>`. -/
structure CacheRecord where
  value : JSValue
  expireAt : Nat
  size : Nat
deriving DecidableEq, Repr

/-- The backing `Map`, in insertion order (oldest first). -/
abbrev Store := List (String × CacheRecord)

/-- Embedding of `Map.get`. -/
def jsMapGet (store : Store) (key : String) : Option CacheRecord :=
  (store.find? (fun kv => kv.1 == key)).map Prod.snd

/-- Embedding of `Map.has`. -/
def jsMapHas (store : Store) (key : String) : Bool :=
  store.any (fun kv => kv.1 == key)

/-- Embedding of `Map.delete`: removes the entry for `key` (at most one exists in a
genuine `Map`). -/
def jsMapDelete : Store → String → Store
  | [], _ => []
  | kv :: rest, key => if kv.1 == key then rest else kv :: jsMapDelete rest key

/-- Embedding of `Map.set`: an existing key keeps its position, a new key is appended at
the most-recently-inserted end. -/
def jsMapSet : Store → String → CacheRecord → Store
  | [], key, rec => [(key, rec)]
  | kv :: rest, key, rec =>
    if kv.1 == key then (key, rec) :: rest else kv :: jsMapSet rest key rec

/-- Resolved configuration (`Required<MemoryCacheOptions>`).  The memory
threshold is the fraction `0.8` by default. -/
structure ResolvedOptions where
  maxSize : Nat
  maxMemoryBytes : Nat
  cleanupInterval : Nat
  memoryThreshold : Rat
deriving DecidableEq, Repr

/-- Constructor-supplied options, each optional. -/
structure MemoryCacheOptions where
  maxSize : Option Nat := none
  maxMemoryBytes : Option Nat := none
  cleanupInterval : Option Nat := none
  memoryThreshold : Option Rat := none

/-- Default resolution performed by the `MemoryCache` constructor. -/
def resolveOptions (opts : MemoryCacheOptions) : ResolvedOptions where
  maxSize := opts.maxSize.getD 1000
  maxMemoryBytes := opts.maxMemoryBytes.getD (100 * 1024 * 1024)
  cleanupInterval := opts.cleanupInterval.getD (5 * 60 * 1000)
  memoryThreshold := opts.memoryThreshold.getD (8 / 10)

/-- Mutable fields of a `MemoryCache` instance. -/
structure CacheState where
  store : Store
  lastCleanup : Nat
  hits : Nat
  misses : Nat
  evictions : Nat
deriving DecidableEq, Repr

/-- State of a freshly constructed cache. -/
def initialState : CacheState where
  store := []
  lastCleanup := 0
  hits := 0
  misses := 0
  evictions := 0

/-- Embedding of `MemoryCache.calculateMemoryUsage`: sum of the recorded entry sizes. -/
def calculateMemoryUsage (store : Store) : Nat :=
  store.foldl (fun total kv => total + kv.2.size) 0

/-- Embedding of `MemoryCache.cleanupExpired`: collect the keys whose `expireAt <= now`,
then delete each; returns the new store and the number of deletions. -/
def cleanupExpired (now : Nat) (store : Store) : Store × Nat :=
  let expiredKeys := (store.filter (fun kv => kv.2.expireAt ≤ now)).map Prod.fst
  (expiredKeys.foldl (fun s k => jsMapDelete s k) store, expiredKeys.length)

/-- Embedding of `MemoryCache.evictLRU(count)`: delete up to `count` entries from the
least-recently-used (front) end; the second component counts the evictions
performed. -/
def evictLRUGo : Nat → Store → Store × Nat
  | 0, store => (store, 0)
  | _ + 1, [] => ([], 0)
  | count + 1, _ :: rest =>
    let r := evictLRUGo count rest
    (r.1, r.2 + 1)

/-- Embedding of `MemoryCache.evictForMemory(bytesToFree)`: while `freed < bytesToFree`,
delete the entry at the least-recently-used end, accumulating its size into
`freed`; stops when enough is freed or the store is exhausted.  The target
is a `Rat` because one caller passes the fractional `memoryUsage * 0.1`. -/
def evictForMemoryGo (bytesToFree : Rat) : Nat → Store → Store × Nat
  | _, [] => ([], 0)
  | freed, kv :: rest =>
    if (freed : Rat) < bytesToFree then
      let r := evictForMemoryGo bytesToFree (freed + kv.2.size) rest
      (r.1, r.2 + 1)
    else (kv :: rest, 0)

/-- Eviction steps 1-4 of `MemoryCache.smartCleanup`, once the interval
gate has been passed: purge expired entries, enforce the item cap, enforce
the memory cap, and finally free 10% of usage when the usage fraction
exceeds the threshold.  `memoryUsage` is computed once, between the
item-cap and memory-cap steps, exactly as in the source; the second
component is the number of evictions performed. -/
def smartCleanupBody (o : ResolvedOptions) (now : Nat) (store : Store) :
    Store × Nat :=
  let store1 := (cleanupExpired now store).1
  let sizeOver : Int := (store1.length : Int) - (o.maxSize : Int)
  let r2 := if sizeOver > 0 then evictLRUGo sizeOver.toNat store1 else (store1, 0)
  let memoryUsage := calculateMemoryUsage r2.1
  let memoryOver : Int := (memoryUsage : Int) - (o.maxMemoryBytes : Int)
  let r3 := if memoryOver > 0 then evictForMemoryGo (memoryOver : Rat) 0 r2.1
    else (r2.1, 0)
  let memoryPercent : Rat := (memoryUsage : Rat) / (o.maxMemoryBytes : Rat)
  let r4 := if memoryPercent > o.memoryThreshold then
      evictForMemoryGo ((memoryUsage : Rat) * (1 / 10)) 0 r3.1
    else (r3.1, 0)
  (r4.1, r2.2 + r3.2 + r4.2)

/-- Embedding of `MemoryCache.smartCleanup(force)`: gated by the cleanup interval unless
forced, then runs the eviction steps and stamps `lastCleanup`. -/
def smartCleanup (o : ResolvedOptions) (now : Nat) (force : Bool)
    (s : CacheState) : CacheState :=
  if !force && ((now : Int) - (s.lastCleanup : Int) < (o.cleanupInterval : Int)) then s
  else
    let r := smartCleanupBody o now s.store
    { s with
      store := r.1
      lastCleanup := now
      evictions := s.evictions + r.2 }

/-- Result of `MemoryCache.get`. -/
structure GetResult where
  hit : Bool
  value : Option JSValue
deriving DecidableEq, Repr

/-- Embedding of `MemoryCache.get(key)`: opportunistic cleanup, then miss on absence, hit
with LRU refresh (delete + re-insert at the recent end) on an unexpired
entry, and purge + miss on an expired one. -/
def cacheGet (o : ResolvedOptions) (now : Nat) (key : String)
    (s : CacheState) : GetResult × CacheState :=
  let s := smartCleanup o now false s
  match jsMapGet s.store key with
  | none => (⟨false, none⟩, { s with misses := s.misses + 1 })
  | some rec =>
    if rec.expireAt > now then
      (⟨true, some rec.value⟩,
        { s with
          store := jsMapSet (jsMapDelete s.store key) key rec
          hits := s.hits + 1 })
    else
      (⟨false, none⟩,
        { s with store := jsMapDelete s.store key, misses := s.misses + 1 })

/-- The `if (this.store.has(key)) this.store.delete(key)` prologue of
`MemoryCache.set`. -/
def deleteIfPresent (store : Store) (key : String) : Store :=
  if jsMapHas store key then jsMapDelete store key else store

/-- The `needSizeEviction || needMemoryEviction` block of `MemoryCache.set`:
purge expired entries, then evict by count if the item cap is still
exceeded, or else evict by size if the memory cap would still be exceeded.
`size` is the estimated size of the value about to be inserted. -/
def setEvictExpired (o : ResolvedOptions) (now : Nat) (size : Nat)
    (store0 : Store) : Store × Nat :=
  let store1 := (cleanupExpired now store0).1
  let stillNeedSizeEviction := decide (store1.length ≥ o.maxSize)
  let currentMemoryAfter := calculateMemoryUsage store1
  let stillNeedMemoryEviction :=
    decide (currentMemoryAfter + size > o.maxMemoryBytes)
  if stillNeedSizeEviction then
    let toEvict := store1.length - o.maxSize + 1
    evictLRUGo toEvict store1
  else if stillNeedMemoryEviction then
    let bytesToFree : Int :=
      ((currentMemoryAfter : Int) + (size : Int)) - (o.maxMemoryBytes : Int)
    evictForMemoryGo (bytesToFree : Rat) 0 store1
  else (store1, 0)

def cacheSet (o : ResolvedOptions) (now : Nat) (key : String) (value : JSValue)
    (ttlMs : Int) (s : CacheState) : CacheState :=
  let s := smartCleanup o now false s
  let store0 := deleteIfPresent s.store key
  let size := estimateSize value
  let record : CacheRecord := ⟨value, now + (max 0 ttlMs).toNat, size⟩
  let currentMemory := calculateMemoryUsage store0
  let needSizeEviction := decide (store0.length ≥ o.maxSize)
  let needMemoryEviction := decide (currentMemory + size > o.maxMemoryBytes)
  let r := if needSizeEviction || needMemoryEviction then
      setEvictExpired o now size store0
    else (store0, 0)
  { s with
    store := jsMapSet r.1 key record
    evictions := s.evictions + r.2 }

/-- Embedding of `MemoryCache.delete(key)`. -/
def cacheDelete (key : String) (s : CacheState) : CacheState :=
  { s with store := jsMapDelete s.store key }

/-- Embedding of `MemoryCache.clear()`: empties the store and resets the counters. -/
def cacheClear (_s : CacheState) : CacheState :=
  { store := [], lastCleanup := 0, hits := 0, misses := 0, evictions := 0 }

/-- Embedding of `MemoryCache.forceCleanup()`. -/
def forceCleanup (o : ResolvedOptions) (now : Nat) (s : CacheState) : CacheState :=
  smartCleanup o now true s

/-! ## Plugin registry (PluginManager)

Embedding of `src/server/core/plugins/manager.ts`.  A registered plugin is
reduced to the two observations `getPlugins` sorts by: its name and its
numeric priority. -/

/-- One registered plugin capability (its `name()` and `priority()`). -/
structure PluginC where
  name : String
  priority : Int
deriving DecidableEq, Repr

/-- Embedding of `PluginManager.registerPlugin`: silently ignores a null/absent plugin,
otherwise appends to the internal list. -/
def registerPlugin (plugins : List PluginC) (p : Option PluginC) : List PluginC :=
  match p with
  | none => plugins
  | some p => plugins ++ [p]

/-- Embedding of `PluginManager.registerPlugins`. -/
def registerPlugins (plugins : List PluginC) (ps : List (Option PluginC)) :
    List PluginC :=
  ps.foldl registerPlugin plugins

/-- Embedding of `PluginManager.getPlugins`: a copy of the list sorted by the comparator
`(a, b) => a.priority() - b.priority()`.  JavaScript's `Array.prototype.sort`
is required to be stable, so it is embedded as the stable `mergeSort` on the
induced total preorder. -/
def getPlugins (plugins : List PluginC) : List PluginC :=
  plugins.mergeSort (fun a b => a.priority ≤ b.priority)

/-- Embedding of `PluginManager.getPlugin(name)`: first exact match. -/
def getPlugin (plugins : List PluginC) (name : String) : Option PluginC :=
  plugins.find? (fun p => p.name == name)

/-! ## Orchestrator failure isolation (spec-modelled)

Modelled from the spec: the `SearchService` implementation file
(`server/core/services/searchService.ts`) is not among the provided
sources — only its callers and its integration tests are — so the
per-plugin failure-isolation fragment of `SearchService.search` is modelled
from spec section 4.4 steps 5 and 8 and section 7: every plugin `search`
call either resolves with a result list or throws/rejects; a throwing
plugin is caught and contributes zero results, sibling invocations are
unaffected, and `total` is the count of surviving raw results. -/

/-- Outcome of one plugin's `search` invocation. -/
inductive PluginRun where
  | ok (results : List Nat)
  | err (message : String)
deriving DecidableEq, Repr

/-- Modelled from the spec: the per-plugin catch converts a rejection into
an empty result list for that plugin (spec section 4.4 step 5). -/
def runOutcome : PluginRun → List Nat
  | .ok results => results
  | .err _ => []

/-- Shape of the orchestrator response observed by C3. -/
structure SearchResponseM where
  total : Nat
  results : List Nat
deriving DecidableEq, Repr

/-- Modelled from the spec: `SearchService.search` collects every plugin's
outcome independently, absorbing failures per plugin, and returns a normal
response whose `total` counts the surviving raw results (spec section 4.4
steps 5-6 and 8, section 7); only category-(e) programming errors would
surface as `Except.error`, and this assembly performs none. -/
def searchServiceSearch (runs : List PluginRun) : Except String SearchResponseM :=
  let collected := (runs.map runOutcome).flatten
  Except.ok ⟨collected.length, collected⟩

/-- Number of successful plugins' results, summed. -/
def successTotal (runs : List PluginRun) : Nat :=
  (runs.map (fun r => (runOutcome r).length)).sum

/-! ## Concrete instances used by counterexamples and witnesses -/

/-- Options of the C1 counterexample cache: an 8-byte memory budget. -/
def c1Opts : ResolvedOptions :=
  resolveOptions { maxMemoryBytes := some 8 }

/-- Options of the C2 witness cache: item capacity 2. -/
def c2Opts : ResolvedOptions :=
  resolveOptions { maxSize := some 2 }

/-- Default options (used by the C4/C9 witnesses). -/
def defaultOpts : ResolvedOptions :=
  resolveOptions {}

/-- Cache state of the C2 scenario after `set(k1)`, `set(k2)`, `get(k1)`,
at timestamps inside the opportunistic-cleanup gate interval. -/
def c2StateBefore : CacheState :=
  (cacheGet c2Opts 1002 "k1"
    (cacheSet c2Opts 1001 "k2" (.str "v2") 60000
      (cacheSet c2Opts 1000 "k1" (.str "v1") 60000 initialState))).2

/-- Cache state of the C4 scenario: `set("k", "v", ttlMs = 1000)` at
`now = 1000`, so the entry expires at the absolute timestamp 2000. -/
def c4State : CacheState :=
  cacheSet defaultOpts 1000 "k" (.str "v") 1000 initialState

/-- Cache state of the C9 boundary scenario: one entry whose `expireAt`
is exactly 500. -/
def c9State : CacheState where
  store := [("k", ⟨.num 1, 500, 8⟩)]
  lastCleanup := 400
  hits := 0
  misses := 0
  evictions := 0

/-! ## Support lemmas for the merger -/

theorem filterNew_cons (seen : List String) (item : Link) (rest : List Link) :
    filterNew seen (item :: rest) =
      if item.url ∈ seen then filterNew seen rest
      else item :: filterNew (item.url :: seen) rest := by
  by_cases h : item.url ∈ seen <;> simp [filterNew, h]

theorem mergeLoop_cons (seen : List String) (acc : List Link) (item : Link)
    (rest : List Link) :
    mergeLoop seen acc (item :: rest) =
      if item.url ∈ seen then mergeLoop seen acc rest
      else mergeLoop (item.url :: seen) (acc ++ [item]) rest := by
  by_cases h : item.url ∈ seen <;> simp [mergeLoop, h]

theorem lookupType_nil (t : String) : lookupType [] t = [] := rfl

theorem lookupType_cons (k : String) (v : List Link) (rest : MergedLinks)
    (t : String) :
    lookupType ((k, v) :: rest) t = if k = t then v else lookupType rest t := by
  by_cases h : k = t
  · simp [lookupType, List.find?, h]
  · have hb : (k == t) = false := by simp [h]
    simp [lookupType, List.find?, hb, h]

theorem hasType_cons (k : String) (v : List Link) (rest : MergedLinks)
    (t : String) :
    hasType ((k, v) :: rest) t = (decide (k = t) || hasType rest t) := by
  by_cases h : k = t <;> simp [hasType, h]

theorem hasType_iff_mem (m : MergedLinks) (t : String) :
    hasType m t = true ↔ t ∈ typeKeys m := by
  simp only [hasType, typeKeys, List.any_eq_true, List.mem_map, beq_iff_eq]

theorem lookupType_eq_nil_of_not_mem {m : MergedLinks} {t : String}
    (h : t ∉ typeKeys m) : lookupType m t = [] := by
  induction m with
  | nil => rfl
  | cons kv rest ih =>
    cases kv with
    | mk k v =>
      have hk : k ≠ t := fun he => h (by simp [typeKeys, he])
      rw [lookupType_cons, if_neg hk]
      exact ih (fun hm => h (by simp [typeKeys] at hm ⊢; exact Or.inr hm))

theorem mergeLoop_eq_append (next : List Link) :
    ∀ (seen : List String) (acc : List Link),
      mergeLoop seen acc next = acc ++ filterNew seen next := by
  induction next with
  | nil => intro seen acc; simp [mergeLoop, filterNew]
  | cons item rest ih =>
    intro seen acc
    by_cases h : item.url ∈ seen
    · rw [mergeLoop_cons, filterNew_cons, if_pos h, if_pos h, ih]
    · rw [mergeLoop_cons, filterNew_cons, if_neg h, if_neg h, ih]
      simp

theorem filterNew_eq_nil {next : List Link} {seen : List String}
    (h : ∀ item ∈ next, item.url ∈ seen) : filterNew seen next = [] := by
  induction next with
  | nil => rfl
  | cons item rest ih =>
    rw [filterNew_cons, if_pos (h item (by simp))]
    exact ih (fun i hi => h i (by simp [hi]))

theorem mem_url_filterNew {item : Link} :
    ∀ {next : List Link}, item ∈ next → ∀ seen : List String,
      item.url ∈ seen ∨ item.url ∈ (filterNew seen next).map Link.url := by
  intro next
  induction next with
  | nil => intro h; cases h
  | cons hd rest ih =>
    intro hmem seen
    by_cases hseen : hd.url ∈ seen
    · rcases List.mem_cons.mp hmem with heq | htl
      · subst heq; exact Or.inl hseen
      · rw [filterNew_cons, if_pos hseen]
        exact ih htl seen
    · rw [filterNew_cons, if_neg hseen, List.map_cons]
      rcases List.mem_cons.mp hmem with heq | htl
      · subst heq; exact Or.inr (by simp)
      · rcases ih htl (hd.url :: seen) with hin | hin
        · rcases List.mem_cons.mp hin with heq | hin2
          · exact Or.inr (by simp [heq])
          · exact Or.inl hin2
        · exact Or.inr (List.mem_cons_of_mem _ hin)

theorem filterNew_urls_nodup (next : List Link) :
    ∀ seen : List String,
      ((filterNew seen next).map Link.url).Nodup ∧
        ∀ u ∈ (filterNew seen next).map Link.url, u ∉ seen := by
  induction next with
  | nil => intro seen; simp [filterNew]
  | cons item rest ih =>
    intro seen
    by_cases h : item.url ∈ seen
    · rw [filterNew_cons, if_pos h]
      exact ih seen
    · obtain ⟨hnd, hdisj⟩ := ih (item.url :: seen)
      rw [filterNew_cons, if_neg h, List.map_cons]
      refine ⟨List.nodup_cons.mpr ⟨fun hc => (hdisj _ hc) (by simp), hnd⟩, ?_⟩
      intro u hu
      rcases List.mem_cons.mp hu with rfl | hu
      · exact h
      · exact fun hc => hdisj u hu (by simp [hc])

theorem lookupType_append_single_ne (m : MergedLinks) {t t' : String}
    (v : List Link) (hne : t' ≠ t) :
    lookupType (m ++ [(t, v)]) t' = lookupType m t' := by
  induction m with
  | nil =>
    rw [List.nil_append, lookupType_nil, lookupType_cons,
      if_neg (fun h => hne h.symm), lookupType_nil]
  | cons kv rest ih =>
    cases kv with
    | mk k w => rw [List.cons_append, lookupType_cons, lookupType_cons, ih]

theorem lookupType_append_single_self (m : MergedLinks) {t : String}
    (v : List Link) (h : ¬hasType m t) :
    lookupType (m ++ [(t, v)]) t = v := by
  induction m with
  | nil => simp [lookupType_cons]
  | cons kv rest ih =>
    cases kv with
    | mk k w =>
      have hk : k ≠ t := fun he => h (by rw [hasType_cons]; simp [he])
      have hrest : ¬hasType rest t := fun hc => h (by rw [hasType_cons]; simp [hc])
      rw [List.cons_append, lookupType_cons, if_neg hk, ih hrest]

theorem lookupType_mapReplace_ne (m : MergedLinks) {t t' : String} (v : List Link)
    (hne : t' ≠ t) :
    lookupType (m.map (fun kv => if kv.1 == t then (t, v) else kv)) t' =
      lookupType m t' := by
  induction m with
  | nil => rfl
  | cons kv rest ih =>
    cases kv with
    | mk k w =>
      by_cases hk : k = t
      · subst hk
        simp only [List.map_cons, beq_self_eq_true, if_pos]
        rw [lookupType_cons, lookupType_cons, if_neg (fun h => hne h.symm),
          if_neg (fun h => hne h.symm), ih]
      · have hb : (k == t) = false := by simp [hk]
        simp only [List.map_cons, hb, Bool.false_eq_true, if_false]
        rw [lookupType_cons, lookupType_cons, ih]

theorem lookupType_mapReplace_self (m : MergedLinks) {t : String} (v : List Link)
    (h : hasType m t) :
    lookupType (m.map (fun kv => if kv.1 == t then (t, v) else kv)) t = v := by
  induction m with
  | nil => simp [hasType] at h
  | cons kv rest ih =>
    cases kv with
    | mk k w =>
      by_cases hk : k = t
      · subst hk
        simp only [List.map_cons, beq_self_eq_true, if_pos]
        rw [lookupType_cons, if_pos rfl]
      · have hb : (k == t) = false := by simp [hk]
        have hrest : hasType rest t := by
          rw [hasType_cons] at h
          simpa [hk] using h
        simp only [List.map_cons, hb, Bool.false_eq_true, if_false]
        rw [lookupType_cons, if_neg hk, ih hrest]

theorem lookupType_setType_self (m : MergedLinks) (t : String) (v : List Link) :
    lookupType (setType m t v) t = v := by
  by_cases h : hasType m t
  · rw [setType, if_pos h]
    exact lookupType_mapReplace_self m v h
  · rw [setType, if_neg h]
    exact lookupType_append_single_self m v h

theorem lookupType_setType_ne (m : MergedLinks) {t t' : String} (v : List Link)
    (hne : t' ≠ t) : lookupType (setType m t v) t' = lookupType m t' := by
  by_cases h : hasType m t
  · rw [setType, if_pos h]
    exact lookupType_mapReplace_ne m v hne
  · rw [setType, if_neg h]
    exact lookupType_append_single_ne m v hne

theorem typeKeys_mapReplace (m : MergedLinks) (t : String) (v : List Link) :
    typeKeys (m.map (fun kv => if kv.1 == t then (t, v) else kv)) = typeKeys m := by
  induction m with
  | nil => rfl
  | cons kv rest ih =>
    by_cases hk : kv.1 = t
    · simp only [typeKeys, List.map_cons] at ih ⊢
      simp [hk, ih]
      intro a b _
      by_cases ha : a = t <;> simp [ha]
    · have hb : (kv.1 == t) = false := by simp [hk]
      simp only [typeKeys, List.map_cons, hb, Bool.false_eq_true, if_false] at ih ⊢
      rw [ih]

theorem typeKeys_setType (m : MergedLinks) (t : String) (v : List Link) :
    typeKeys (setType m t v) =
      if hasType m t then typeKeys m else typeKeys m ++ [t] := by
  by_cases h : hasType m t
  · rw [setType, if_pos h, if_pos h, typeKeys_mapReplace]
  · rw [setType, if_neg h, if_neg h]
    simp [typeKeys]

theorem nodup_typeKeys_setType {m : MergedLinks} (t : String) (v : List Link)
    (h : (typeKeys m).Nodup) : (typeKeys (setType m t v)).Nodup := by
  rw [typeKeys_setType]
  by_cases hh : hasType m t
  · simpa [hh] using h
  · have hnot : t ∉ typeKeys m := fun hm => hh ((hasType_iff_mem m t).mpr hm)
    simp [hh, List.nodup_append, h, hnot]

theorem mapReplace_id_of_not_mem (m : MergedLinks) {t : String} (v : List Link)
    (h : t ∉ typeKeys m) :
    m.map (fun kv => if kv.1 == t then (t, v) else kv) = m := by
  induction m with
  | nil => rfl
  | cons kv rest ih =>
    have hk : kv.1 ≠ t := fun he => h (by simp [typeKeys, he])
    have hb : (kv.1 == t) = false := by simp [hk]
    have hrest : t ∉ typeKeys rest := fun hm => h (by simp [typeKeys] at hm ⊢; exact Or.inr hm)
    simp only [List.map_cons, hb, Bool.false_eq_true, if_false, ih hrest]

theorem setType_lookup_self :
    ∀ (m : MergedLinks) (t : String), (typeKeys m).Nodup → hasType m t →
      setType m t (lookupType m t) = m := by
  intro m t hnd h
  rw [setType, if_pos h]
  clear h
  induction m with
  | nil => rfl
  | cons kv rest ih =>
    cases kv with
    | mk k w =>
      have hndrest : (typeKeys rest).Nodup := by
        simpa [typeKeys] using hnd.tail
      by_cases hk : k = t
      · subst hk
        have hnot : k ∉ typeKeys rest := by
          have := hnd
          simp only [typeKeys, List.map_cons, List.nodup_cons] at this
          exact this.1
        rw [lookupType_cons, if_pos rfl]
        simp only [List.map_cons, beq_self_eq_true, if_pos]
        rw [mapReplace_id_of_not_mem rest w hnot]
      · have hb : (k == t) = false := by simp [hk]
        rw [lookupType_cons, if_neg hk]
        simp only [List.map_cons, hb, Bool.false_eq_true, if_false]
        rw [ih hndrest]

theorem mergeMergedByType_some (target inc : MergedLinks) :
    mergeMergedByType target (some inc) = inc.foldl mergeStep target := rfl

theorem mergeStep_eq (out : MergedLinks) (kv : String × List Link) :
    mergeStep out kv =
      setType out kv.1 (lookupType out kv.1 ++
        filterNew ((lookupType out kv.1).map Link.url) kv.2) := by
  simp [mergeStep, mergeLoop_eq_append]

theorem foldl_mergeStep_lookup_not_mem (B : List (String × List Link)) :
    ∀ (m : MergedLinks) {t : String}, t ∉ B.map Prod.fst →
      lookupType (B.foldl mergeStep m) t = lookupType m t := by
  induction B with
  | nil => intro m t _; rfl
  | cons kv rest ih =>
    intro m t ht
    have h1 : t ≠ kv.1 := fun he => ht (by simp [he])
    have h2 : t ∉ rest.map Prod.fst := fun hm => ht (by simp [hm])
    rw [List.foldl_cons, ih _ h2, mergeStep_eq, lookupType_setType_ne _ _ h1]

theorem foldl_mergeStep_lookup_mem :
    ∀ (B : List (String × List Link)) (m : MergedLinks)
      (kv : String × List Link), (B.map Prod.fst).Nodup → kv ∈ B →
      lookupType (B.foldl mergeStep m) kv.1 =
        lookupType m kv.1 ++
          filterNew ((lookupType m kv.1).map Link.url) kv.2 := by
  intro B
  induction B with
  | nil => intro m kv _ h; cases h
  | cons hd rest ih =>
    intro m kv hnd hmem
    have hnd' := List.nodup_cons.mp hnd
    rcases List.mem_cons.mp hmem with heq | htl
    · subst heq
      have hnotin : kv.1 ∉ rest.map Prod.fst := hnd'.1
      rw [List.foldl_cons, foldl_mergeStep_lookup_not_mem rest _ hnotin,
        mergeStep_eq, lookupType_setType_self]
    · have hdne : kv.1 ≠ hd.1 := by
        intro he
        exact hnd'.1 (he ▸ List.mem_map_of_mem Prod.fst htl)
      rw [List.foldl_cons, ih _ kv hnd'.2 htl, mergeStep_eq,
        lookupType_setType_ne _ _ hdne]

theorem mem_typeKeys_setType {m : MergedLinks} {t t0 : String} (v : List Link)
    (h : t ∈ typeKeys m ∨ t = t0) : t ∈ typeKeys (setType m t0 v) := by
  rw [typeKeys_setType]
  by_cases hh : hasType m t0
  · rcases h with h | rfl
    · simp [hh, h]
    · simp [hh, (hasType_iff_mem m t).mp hh]
  · rcases h with h | rfl
    · simp [hh, h]
    · simp [hh]

theorem mem_typeKeys_foldl_of_mem (B : List (String × List Link)) :
    ∀ (m : MergedLinks) {t : String},
      t ∈ typeKeys m ∨ t ∈ B.map Prod.fst →
      t ∈ typeKeys (B.foldl mergeStep m) := by
  induction B with
  | nil =>
    intro m t h
    rcases h with h | h
    · exact h
    · cases h
  | cons hd rest ih =>
    intro m t h
    rw [List.foldl_cons]
    apply ih
    by_cases hr : t ∈ rest.map Prod.fst
    · exact Or.inr hr
    · left
      rw [mergeStep_eq]
      apply mem_typeKeys_setType
      rcases h with h | h
      · exact Or.inl h
      · rcases (by simpa using h : t = hd.1 ∨ t ∈ rest.map Prod.fst) with h | h
        · exact Or.inr h
        · exact absurd h hr

theorem nodup_typeKeys_foldl (B : List (String × List Link)) :
    ∀ m : MergedLinks, (typeKeys m).Nodup →
      (typeKeys (B.foldl mergeStep m)).Nodup := by
  induction B with
  | nil => intro m h; exact h
  | cons hd rest ih =>
    intro m h
    rw [List.foldl_cons]
    refine ih _ ?_
    rw [mergeStep_eq]
    exact nodup_typeKeys_setType _ _ h

theorem mergeStep_fix {m : MergedLinks} {kv : String × List Link}
    (hnd : (typeKeys m).Nodup) (hhas : hasType m kv.1)
    (hurl : ∀ item ∈ kv.2, item.url ∈ (lookupType m kv.1).map Link.url) :
    mergeStep m kv = m := by
  rw [mergeStep_eq, filterNew_eq_nil hurl, List.append_nil]
  exact setType_lookup_self m kv.1 hnd hhas

theorem foldl_mergeStep_fix :
    ∀ (B : List (String × List Link)) (m : MergedLinks),
      (typeKeys m).Nodup →
      (∀ kv ∈ B, hasType m kv.1 = true) →
      (∀ kv ∈ B, ∀ item ∈ kv.2, item.url ∈ (lookupType m kv.1).map Link.url) →
      B.foldl mergeStep m = m := by
  intro B
  induction B with
  | nil => intro m _ _ _; rfl
  | cons hd rest ih =>
    intro m hnd hhas hurl
    rw [List.foldl_cons, mergeStep_fix hnd (hhas hd (by simp)) (hurl hd (by simp))]
    exact ih m hnd (fun kv h => hhas kv (by simp [h]))
      (fun kv h => hurl kv (by simp [h]))

/-! ## Claim theorems for the merger -/

/-- C5: for every `target` and `incoming` mapping (an object, so its keys
are pairwise distinct), the merge result maps each storage-type key of
`incoming` to `target`'s existing list for that key (or empty) followed by
exactly those incoming links whose URL is not already present, in
`incoming`'s order; keys not touched by `incoming` — in particular keys
present only in `target` — are carried through unchanged; and whenever
`target`'s per-type URL lists are duplicate-free, so are the result's. -/
theorem merge_result_shape (target inc : MergedLinks)
    (hinc : (inc.map Prod.fst).Nodup) :
    (∀ kv ∈ inc,
        lookupType (mergeMergedByType target (some inc)) kv.1 =
          lookupType target kv.1 ++
            filterNew ((lookupType target kv.1).map Link.url) kv.2) ∧
      (∀ t, t ∉ inc.map Prod.fst →
        lookupType (mergeMergedByType target (some inc)) t =
          lookupType target t) ∧
      ((∀ t, ((lookupType target t).map Link.url).Nodup) →
        ∀ t, ((lookupType (mergeMergedByType target (some inc)) t).map
          Link.url).Nodup) := by
  refine ⟨?_, ?_, ?_⟩
  · intro kv hkv
    rw [mergeMergedByType_some]
    exact foldl_mergeStep_lookup_mem inc target kv hinc hkv
  · intro t ht
    rw [mergeMergedByType_some]
    exact foldl_mergeStep_lookup_not_mem inc target ht
  · intro hW t
    rw [mergeMergedByType_some]
    by_cases hmem : t ∈ inc.map Prod.fst
    · obtain ⟨kv, hkv, rfl⟩ := List.mem_map.mp hmem
      rw [foldl_mergeStep_lookup_mem inc target kv hinc hkv, List.map_append]
      refine List.Nodup.append (hW kv.1) (filterNew_urls_nodup kv.2 _).1 ?_
      intro u hu1 hu2
      exact (filterNew_urls_nodup kv.2 _).2 u hu2 hu1
    · rw [foldl_mergeStep_lookup_not_mem inc target hmem]
      exact hW t

/-- Witness for C5 at the spec's own example: merging `{baidu: [url1]}` with
`{baidu: [url2, url1]}` yields `{baidu: [url1, url2]}`. -/
theorem merge_result_shape_witness :
    (([("baidu", [({url := "url2", password := "", title := ""} : Link),
        {url := "url1", password := "", title := ""}])] :
          MergedLinks).map Prod.fst).Nodup ∧
      lookupType
        (mergeMergedByType [("baidu", [{url := "url1", password := "", title := ""}])]
          (some [("baidu", [{url := "url2", password := "", title := ""},
            {url := "url1", password := "", title := ""}])])) "baidu" =
        [{url := "url1", password := "", title := ""},
          {url := "url2", password := "", title := ""}] := by
  refine ⟨by decide, ?_⟩
  have h := (merge_result_shape
      [("baidu", [{url := "url1", password := "", title := ""}])]
      [("baidu", [{url := "url2", password := "", title := ""},
        {url := "url1", password := "", title := ""}])] (by decide)).1
      ("baidu", [{url := "url2", password := "", title := ""},
        {url := "url1", password := "", title := ""}]) (by decide)
  rw [h]
  decide

/-- C6: merging the same incoming object twice is idempotent — for mappings
`A` and `B` (objects, so each has pairwise distinct keys),
`mergeMergedByType(mergeMergedByType(A, B), B) = mergeMergedByType(A, B)`:
re-merging introduces no duplicate URLs and leaves every type list
unchanged. -/
theorem merge_idempotent (A B : MergedLinks)
    (hA : (typeKeys A).Nodup) (hB : (B.map Prod.fst).Nodup) :
    mergeMergedByType (mergeMergedByType A (some B)) (some B) =
      mergeMergedByType A (some B) := by
  rw [mergeMergedByType_some, mergeMergedByType_some]
  apply foldl_mergeStep_fix
  · exact nodup_typeKeys_foldl B A hA
  · intro kv hkv
    exact (hasType_iff_mem _ _).mpr
      (mem_typeKeys_foldl_of_mem B A (Or.inr (List.mem_map_of_mem _ hkv)))
  · intro kv hkv item hitem
    rw [foldl_mergeStep_lookup_mem B A kv hB hkv]
    rcases mem_url_filterNew hitem ((lookupType A kv.1).map Link.url) with h | h
    · simp [List.map_append, h]
    · simp [List.map_append, h]

/-- Witness for C6 at a concrete pair of mappings. -/
theorem merge_idempotent_witness :
    mergeMergedByType
        (mergeMergedByType [("baidu", [({url := "u1", password := "", title := ""} : Link)])]
          (some [("baidu", [{url := "u2", password := "", title := ""}]),
            ("quark", [{url := "u1", password := "", title := ""}])]))
        (some [("baidu", [{url := "u2", password := "", title := ""}]),
          ("quark", [{url := "u1", password := "", title := ""}])]) =
      mergeMergedByType [("baidu", [{url := "u1", password := "", title := ""}])]
        (some [("baidu", [{url := "u2", password := "", title := ""}]),
          ("quark", [{url := "u1", password := "", title := ""}])]) :=
  merge_idempotent _ _ (by decide) (by decide)

/-- C7: `mergeMergedByType` mutates neither argument — in the state-passing
rendering `mergeMergedByTypeCall` the contents of `target` and `incoming`
after the call equal their contents before it (the source writes only to
the fresh locals `out`, `mergedArr` and `seen`) — and when `incoming` is
absent the function returns `target` unchanged.  Freshness of the returned
object is a heap-aliasing property with no observable content beyond this
in a value-level embedding. -/
theorem merge_pure (target : MergedLinks) (incoming : Option MergedLinks) :
    (mergeMergedByTypeCall target incoming).2.1 = target ∧
      (mergeMergedByTypeCall target incoming).2.2 = incoming ∧
      (incoming = none → mergeMergedByType target incoming = target) := by
  cases incoming <;> simp [mergeMergedByTypeCall, mergeMergedByType]

/-- Witness for C7 with `incoming` absent. -/
theorem merge_pure_witness :
    mergeMergedByType [("baidu", [({url := "u", password := "", title := ""} : Link)])]
        none =
      [("baidu", [{url := "u", password := "", title := ""}])] :=
  (merge_pure [("baidu", [{url := "u", password := "", title := ""}])] none).2.2 rfl

/-- C10: if `incoming` maps a storage-type key to the empty list and
`target` does not contain that key, the merge result contains that key
mapped to the empty list — merging introduces empty buckets rather than
omitting them. -/
theorem merge_empty_bucket (target inc : MergedLinks) (t : String)
    (hinc : (inc.map Prod.fst).Nodup)
    (hmem : (t, ([] : List Link)) ∈ inc)
    (hnot : t ∉ typeKeys target) :
    t ∈ typeKeys (mergeMergedByType target (some inc)) ∧
      lookupType (mergeMergedByType target (some inc)) t = [] := by
  constructor
  · rw [mergeMergedByType_some]
    exact mem_typeKeys_foldl_of_mem inc target
      (Or.inr (List.mem_map_of_mem Prod.fst hmem))
  · have h := foldl_mergeStep_lookup_mem inc target (t, []) hinc hmem
    rw [mergeMergedByType_some, h, lookupType_eq_nil_of_not_mem hnot]
    rfl

/-- Witness for C10: merging `{}` with `{quark: []}` yields a `quark` key
holding the empty list. -/
theorem merge_empty_bucket_witness :
    "quark" ∈ typeKeys (mergeMergedByType [] (some [("quark", [])])) ∧
      lookupType (mergeMergedByType [] (some [("quark", [])])) "quark" = [] :=
  merge_empty_bucket [] [("quark", [])] "quark" (by decide) (by decide) (by decide)

/-! ## Support lemmas for the cache -/

theorem calculateMemoryUsage_go (store : Store) :
    ∀ init : Nat,
      store.foldl (fun total kv => total + kv.2.size) init =
        init + (store.map (fun kv => kv.2.size)).sum := by
  induction store with
  | nil => intro init; simp
  | cons kv rest ih =>
    intro init
    rw [List.foldl_cons, ih, List.map_cons, List.sum_cons]
    omega

theorem calculateMemoryUsage_eq_sum (store : Store) :
    calculateMemoryUsage store = (store.map (fun kv => kv.2.size)).sum := by
  simpa using calculateMemoryUsage_go store 0

theorem calculateMemoryUsage_cons (kv : String × CacheRecord) (rest : Store) :
    calculateMemoryUsage (kv :: rest) = kv.2.size + calculateMemoryUsage rest := by
  rw [calculateMemoryUsage_eq_sum, calculateMemoryUsage_eq_sum, List.map_cons,
    List.sum_cons]

theorem jsMapHas_iff_mem (store : Store) (key : String) :
    jsMapHas store key = true ↔ key ∈ store.map Prod.fst := by
  simp only [jsMapHas, List.any_eq_true, List.mem_map, beq_iff_eq]

theorem mem_keys_jsMapDelete_subset :
    ∀ {store : Store} {k t : String},
      t ∈ (jsMapDelete store k).map Prod.fst → t ∈ store.map Prod.fst := by
  intro store
  induction store with
  | nil => intro k t h; simpa [jsMapDelete] using h
  | cons kv rest ih =>
    intro k t h
    rw [jsMapDelete] at h
    by_cases hk : kv.1 == k
    · rw [if_pos hk] at h
      exact List.mem_cons_of_mem _ h
    · rw [if_neg hk, List.map_cons] at h
      rcases List.mem_cons.mp h with heq | htl
      · simp [heq]
      · exact List.mem_cons_of_mem _ (ih htl)

theorem not_mem_keys_jsMapDelete_self :
    ∀ {store : Store} {key : String}, (store.map Prod.fst).Nodup →
      key ∉ (jsMapDelete store key).map Prod.fst := by
  intro store
  induction store with
  | nil => intro key _ h; simpa [jsMapDelete] using h
  | cons kv rest ih =>
    intro key hnd
    rw [List.map_cons, List.nodup_cons] at hnd
    rw [jsMapDelete]
    by_cases hk : kv.1 == key
    · rw [if_pos hk]
      have : kv.1 = key := by simpa using hk
      exact this ▸ hnd.1
    · rw [if_neg hk, List.map_cons]
      intro h
      rcases List.mem_cons.mp h with heq | htl
      · exact hk (by simp [heq])
      · exact ih hnd.2 htl

theorem not_mem_keys_deleteIfPresent {store : Store} {key : String}
    (hnd : (store.map Prod.fst).Nodup) :
    key ∉ (deleteIfPresent store key).map Prod.fst := by
  rw [deleteIfPresent]
  by_cases h : jsMapHas store key
  · rw [if_pos h]
    exact not_mem_keys_jsMapDelete_self hnd
  · rw [if_neg h]
    exact fun hm => h ((jsMapHas_iff_mem store key).mpr hm)

theorem jsMapSet_eq_append_of_not_mem :
    ∀ {store : Store} {key : String} (rec : CacheRecord),
      key ∉ store.map Prod.fst → jsMapSet store key rec = store ++ [(key, rec)] := by
  intro store
  induction store with
  | nil => intro key rec _; rfl
  | cons kv rest ih =>
    intro key rec h
    have hne : ¬kv.1 = key := by
      intro he
      simp only [List.map_cons, List.mem_cons] at h
      exact h (Or.inl he.symm)
    have hk : (kv.1 == key) = false := by simp [hne]
    rw [jsMapSet, if_neg (by simp [hk]), List.cons_append,
      ih rec (fun hm => h (by simp [List.map_cons, hm]))]

theorem usage_jsMapSet_not_mem {store : Store} {key : String}
    (rec : CacheRecord) (h : key ∉ store.map Prod.fst) :
    calculateMemoryUsage (jsMapSet store key rec) =
      calculateMemoryUsage store + rec.size := by
  rw [jsMapSet_eq_append_of_not_mem rec h, calculateMemoryUsage_eq_sum,
    calculateMemoryUsage_eq_sum, List.map_append, List.sum_append]
  simp

theorem jsMapGet_jsMapSet_self :
    ∀ (store : Store) (key : String) (rec : CacheRecord),
      jsMapGet (jsMapSet store key rec) key = some rec := by
  intro store
  induction store with
  | nil => intro key rec; simp [jsMapSet, jsMapGet, List.find?]
  | cons kv rest ih =>
    intro key rec
    rw [jsMapSet]
    by_cases hk : kv.1 == key
    · rw [if_pos hk]
      simp [jsMapGet, List.find?]
    · rw [if_neg hk]
      simpa [jsMapGet, List.find?, hk] using ih key rec

theorem cleanupExpired_of_unexpired {now : Nat} {store : Store}
    (h : ∀ kv ∈ store, now < kv.2.expireAt) :
    cleanupExpired now store = (store, 0) := by
  have hfil : store.filter (fun kv => kv.2.expireAt ≤ now) = [] := by
    rw [List.filter_eq_nil_iff]
    intro kv hkv
    simpa using Nat.not_le.mpr (h kv hkv)
  rw [cleanupExpired, hfil]
  rfl

theorem keys_foldl_jsMapDelete_subset :
    ∀ (ks : List String) (store : Store) {t : String},
      t ∈ ((ks.foldl (fun s k => jsMapDelete s k) store).map Prod.fst) →
      t ∈ store.map Prod.fst := by
  intro ks
  induction ks with
  | nil => intro store t h; exact h
  | cons k rest ih =>
    intro store t h
    rw [List.foldl_cons] at h
    exact mem_keys_jsMapDelete_subset (ih (jsMapDelete store k) h)

theorem keys_cleanupExpired_subset {now : Nat} {store : Store} {t : String}
    (h : t ∈ (cleanupExpired now store).1.map Prod.fst) :
    t ∈ store.map Prod.fst := by
  rw [cleanupExpired] at h
  exact keys_foldl_jsMapDelete_subset _ store h

theorem evictLRUGo_one (store : Store) : (evictLRUGo 1 store).1 = store.tail := by
  cases store <;> rfl

theorem keys_evictForMemoryGo_subset (t : Rat) :
    ∀ (store : Store) (freed : Nat) {k : String},
      k ∈ ((evictForMemoryGo t freed store).1.map Prod.fst) →
      k ∈ store.map Prod.fst := by
  intro store
  induction store with
  | nil => intro freed k h; simpa [evictForMemoryGo] using h
  | cons kv rest ih =>
    intro freed k h
    rw [evictForMemoryGo] at h
    by_cases hc : (freed : Rat) < t
    · rw [if_pos hc] at h
      exact List.mem_cons_of_mem _ (ih _ h)
    · rwa [if_neg hc] at h

theorem usage_evictForMemoryGo_le (t : Rat) :
    ∀ (store : Store) (freed : Nat),
      calculateMemoryUsage (evictForMemoryGo t freed store).1 ≤
        calculateMemoryUsage store := by
  intro store
  induction store with
  | nil => intro freed; simp [evictForMemoryGo]
  | cons kv rest ih =>
    intro freed
    rw [evictForMemoryGo]
    by_cases hc : (freed : Rat) < t
    · rw [if_pos hc]
      calc calculateMemoryUsage (evictForMemoryGo t (freed + kv.2.size) rest).1 ≤
            calculateMemoryUsage rest := ih _
        _ ≤ calculateMemoryUsage (kv :: rest) := by
            rw [calculateMemoryUsage_cons]; omega
    · rw [if_neg hc]

theorem usage_evictForMemoryGo_bound (t : Rat) :
    ∀ (store : Store) (freed : Nat),
      (calculateMemoryUsage (evictForMemoryGo t freed store).1 : Rat) ≤
        max 0 ((calculateMemoryUsage store : Rat) + (freed : Rat) - t) := by
  intro store
  induction store with
  | nil =>
    intro freed
    simp [evictForMemoryGo, calculateMemoryUsage]
  | cons kv rest ih =>
    intro freed
    rw [evictForMemoryGo]
    by_cases hc : (freed : Rat) < t
    · rw [if_pos hc]
      refine le_trans (ih (freed + kv.2.size)) (max_le_max le_rfl ?_)
      rw [calculateMemoryUsage_cons]
      push_cast
      linarith
    · rw [if_neg hc]
      refine le_trans ?_ (le_max_right 0 _)
      have : (0 : Rat) ≤ (freed : Rat) - t := by linarith [not_lt.mp hc]
      linarith

theorem smartCleanup_gated {o : ResolvedOptions} {now : Nat} {s : CacheState}
    (h : (now : Int) - (s.lastCleanup : Int) < (o.cleanupInterval : Int)) :
    smartCleanup o now false s = s := by
  rw [smartCleanup, if_pos (by simpa using h)]

theorem usage_smartCleanupBody_le (o : ResolvedOptions) (now : Nat)
    (store : Store) :
    calculateMemoryUsage (smartCleanupBody o now store).1 ≤ o.maxMemoryBytes := by
  rw [smartCleanupBody]
  set store1 := (cleanupExpired now store).1 with hstore1
  set r2 := if (store1.length : Int) - (o.maxSize : Int) > 0 then
      evictLRUGo ((store1.length : Int) - (o.maxSize : Int)).toNat store1
    else (store1, 0) with hr2
  set memoryUsage := calculateMemoryUsage r2.1 with hmu
  by_cases hover : (memoryUsage : Int) - (o.maxMemoryBytes : Int) > 0
  · simp only [hover, if_pos]
    have hb := usage_evictForMemoryGo_bound
      (((memoryUsage : Int) - (o.maxMemoryBytes : Int) : Int) : Rat) r2.1 0
    have hle3 : calculateMemoryUsage
        (evictForMemoryGo (((memoryUsage : Int) - (o.maxMemoryBytes : Int) : Int) : Rat) 0 r2.1).1 ≤
        o.maxMemoryBytes := by
      rw [← hmu] at hb
      have hmax : max (0 : Rat)
          ((memoryUsage : Rat) + (0 : Nat) - (((memoryUsage : Int) - (o.maxMemoryBytes : Int) : Int) : Rat)) =
          (o.maxMemoryBytes : Rat) := by
        rw [max_eq_right] <;> push_cast <;> linarith
      rw [hmax] at hb
      exact_mod_cast hb
    by_cases hpct : (memoryUsage : Rat) / (o.maxMemoryBytes : Rat) > o.memoryThreshold
    · simp only [hpct, if_pos]
      exact le_trans (usage_evictForMemoryGo_le _ _ _) hle3
    · simp only [hpct, if_neg, not_false_iff]
      exact hle3
  · simp only [hover, if_neg, not_false_iff]
    have hle2 : memoryUsage ≤ o.maxMemoryBytes := by omega
    by_cases hpct : (memoryUsage : Rat) / (o.maxMemoryBytes : Rat) > o.memoryThreshold
    · simp only [hpct, if_pos]
      exact le_trans (usage_evictForMemoryGo_le _ _ _) (hmu ▸ hle2)
    · simp only [hpct, if_neg, not_false_iff]
      exact hmu ▸ hle2

theorem keys_evictLRUGo_subset :
    ∀ (n : Nat) (store : Store) {t : String},
      t ∈ (evictLRUGo n store).1.map Prod.fst → t ∈ store.map Prod.fst := by
  intro n
  induction n with
  | zero => intro store t h; exact h
  | succ m ih =>
    intro store t h
    cases store with
    | nil => simpa [evictLRUGo] using h
    | cons kv rest =>
      rw [evictLRUGo] at h
      exact List.mem_cons_of_mem _ (ih rest h)

theorem keys_setEvictExpired_subset {o : ResolvedOptions} {now size : Nat}
    {store0 : Store} {t : String}
    (h : t ∈ (setEvictExpired o now size store0).1.map Prod.fst) :
    t ∈ store0.map Prod.fst := by
  rw [setEvictExpired] at h
  by_cases h1 : (cleanupExpired now store0).1.length ≥ o.maxSize
  · rw [if_pos (by simpa using h1)] at h
    exact keys_cleanupExpired_subset (keys_evictLRUGo_subset _ _ h)
  · rw [if_neg (by simpa using h1)] at h
    by_cases h2 : calculateMemoryUsage (cleanupExpired now store0).1 + size >
        o.maxMemoryBytes
    · rw [if_pos (by simpa using h2)] at h
      exact keys_cleanupExpired_subset (keys_evictForMemoryGo_subset _ _ _ h)
    · rw [if_neg (by simpa using h2)] at h
      exact keys_cleanupExpired_subset h

theorem usage_setEvictExpired_le {o : ResolvedOptions} {now size : Nat}
    {store0 : Store}
    (hcap : (cleanupExpired now store0).1.length < o.maxSize)
    (hsize : size ≤ o.maxMemoryBytes) :
    calculateMemoryUsage (setEvictExpired o now size store0).1 + size ≤
      o.maxMemoryBytes := by
  rw [setEvictExpired]
  have hss : ¬((cleanupExpired now store0).1.length ≥ o.maxSize) := by omega
  rw [if_neg (by simpa using hss)]
  by_cases hmem : calculateMemoryUsage (cleanupExpired now store0).1 + size >
      o.maxMemoryBytes
  · rw [if_pos (by simpa using hmem)]
    set u1 := calculateMemoryUsage (cleanupExpired now store0).1 with hu1
    have hb := usage_evictForMemoryGo_bound
      ((((u1 : Int) + (size : Int)) - (o.maxMemoryBytes : Int) : Int) : Rat)
      (cleanupExpired now store0).1 0
    rw [← hu1] at hb
    have hmax : max (0 : Rat)
        ((u1 : Rat) + ((0 : Nat) : Rat) -
          ((((u1 : Int) + (size : Int)) - (o.maxMemoryBytes : Int) : Int) : Rat)) =
        (o.maxMemoryBytes : Rat) - (size : Rat) := by
      rw [max_eq_right] <;> push_cast <;> [linarith; skip]
      have : (size : Rat) ≤ (o.maxMemoryBytes : Rat) := by exact_mod_cast hsize
      linarith
    rw [hmax] at hb
    have : (calculateMemoryUsage
        (evictForMemoryGo
          ((((u1 : Int) + (size : Int)) - (o.maxMemoryBytes : Int) : Int) : Rat) 0
          (cleanupExpired now store0).1).1 : Rat) + (size : Rat) ≤
        (o.maxMemoryBytes : Rat) := by linarith
    exact_mod_cast this
  · rw [if_neg (by simpa using hmem)]
    dsimp only
    omega

theorem deleteIfPresent_of_not_mem {store : Store} {key : String}
    (h : key ∉ store.map Prod.fst) : deleteIfPresent store key = store := by
  rw [deleteIfPresent, if_neg (fun hc => h ((jsMapHas_iff_mem store key).mp hc))]

theorem length_jsMapDelete_of_mem :
    ∀ {store : Store} {key : String}, key ∈ store.map Prod.fst →
      (jsMapDelete store key).length + 1 = store.length := by
  intro store
  induction store with
  | nil => intro key h; cases h
  | cons kv rest ih =>
    intro key h
    rw [List.map_cons] at h
    rw [jsMapDelete]
    by_cases hk : kv.1 == key
    · rw [if_pos hk]
      simp
    · have hne : kv.1 ≠ key := fun he => hk (by simp [he])
      have hkey : key ∈ rest.map Prod.fst := by
        rcases List.mem_cons.mp h with heq | htl
        · exact absurd heq.symm hne
        · exact htl
      rw [if_neg hk]
      simpa using ih hkey

theorem mem_keys_of_jsMapGet_some {store : Store} {key : String}
    {rec : CacheRecord} (h : jsMapGet store key = some rec) :
    key ∈ store.map Prod.fst := by
  rw [jsMapGet] at h
  rcases Option.map_eq_some'.mp h with ⟨kv, hfind, _⟩
  have hmem := List.mem_of_find?_eq_some hfind
  have hpred := List.find?_some hfind
  have : kv.1 = key := by simpa using hpred
  exact this ▸ List.mem_map_of_mem Prod.fst hmem

/-! ## Claim theorems for the cache -/

/-- C1 counterexample: with an 8-byte memory budget, a single `set` of the
5-character string value "hello" (estimated size 10) into an empty cache
leaves 10 bytes retained — the memory bound is exceeded after a `set`
completes, for this prior state and inserted value. -/
theorem cache_memory_bound_counterexample :
    c1Opts.maxMemoryBytes = 8 ∧
      calculateMemoryUsage
        (cacheSet c1Opts 100 "k" (.str "hello") 60000 initialState).store =
        10 := by
  constructor
  · rfl
  · decide

/-- C1 (amended): the memory bound holds after every `forceCleanup`; and it
holds after a `set` provided the opportunistic cleanup is interval-gated
off, the store is a genuine map (distinct keys), the inserted value's
estimated size is at most `maxMemoryBytes`, and the `set` does not take the
item-count eviction path (after deleting the key and purging expired
entries the store is below `maxSize`).  Without those provisos a `set` can
leave usage above `maxMemoryBytes`, as the counterexample shows. -/
theorem cache_memory_bound_amended :
    (∀ (o : ResolvedOptions) (now : Nat) (s : CacheState),
        calculateMemoryUsage (forceCleanup o now s).store ≤ o.maxMemoryBytes) ∧
      (∀ (o : ResolvedOptions) (now : Nat) (key : String) (value : JSValue)
          (ttlMs : Int) (s : CacheState),
        (now : Int) - (s.lastCleanup : Int) < (o.cleanupInterval : Int) →
        (s.store.map Prod.fst).Nodup →
        estimateSize value ≤ o.maxMemoryBytes →
        (cleanupExpired now (deleteIfPresent s.store key)).1.length < o.maxSize →
        calculateMemoryUsage (cacheSet o now key value ttlMs s).store ≤
          o.maxMemoryBytes) := by
  constructor
  · intro o now s
    rw [forceCleanup, smartCleanup, if_neg (by simp)]
    exact usage_smartCleanupBody_le o now s.store
  · intro o now key value ttlMs s hgate hnd hsize hcap
    have hs : smartCleanup o now false s = s := smartCleanup_gated hgate
    have hkey0 : key ∉ (deleteIfPresent s.store key).map Prod.fst :=
      not_mem_keys_deleteIfPresent hnd
    show calculateMemoryUsage
        ({ smartCleanup o now false s with
            store := _, evictions := _ } : CacheState).store ≤ o.maxMemoryBytes
    simp only [cacheSet, hs]
    by_cases hneed : (decide ((deleteIfPresent s.store key).length ≥ o.maxSize) ||
        decide (calculateMemoryUsage (deleteIfPresent s.store key) +
          estimateSize value > o.maxMemoryBytes)) = true
    · rw [if_pos hneed]
      have hkeyr : key ∉ (setEvictExpired o now (estimateSize value)
          (deleteIfPresent s.store key)).1.map Prod.fst :=
        fun hm => hkey0 (keys_setEvictExpired_subset hm)
      rw [usage_jsMapSet_not_mem _ hkeyr]
      exact usage_setEvictExpired_le hcap hsize
    · rw [if_neg hneed]
      have hmem : ¬(calculateMemoryUsage (deleteIfPresent s.store key) +
          estimateSize value > o.maxMemoryBytes) := by
        intro hc
        exact hneed (by simp [hc])
      rw [usage_jsMapSet_not_mem _ hkey0]
      dsimp only
      omega

/-- Witness for C1 (amended), at a concrete small-value `set` into an empty
cache with an 8-byte budget, and a concrete `forceCleanup`. -/
theorem cache_memory_bound_amended_witness :
    calculateMemoryUsage (forceCleanup c1Opts 500 initialState).store ≤
        c1Opts.maxMemoryBytes ∧
      calculateMemoryUsage
          (cacheSet c1Opts 100 "k" (.boolean true) 60000 initialState).store ≤
        c1Opts.maxMemoryBytes :=
  ⟨cache_memory_bound_amended.1 c1Opts 500 initialState,
    cache_memory_bound_amended.2 c1Opts 100 "k" (.boolean true) 60000 initialState
      (by decide) (by decide) (by decide) (by decide)⟩

theorem keys_tail_subset {store : Store} {t : String}
    (h : t ∈ store.tail.map Prod.fst) : t ∈ store.map Prod.fst := by
  cases store with
  | nil => simpa using h
  | cons kv rest => exact List.mem_cons_of_mem _ h

/-- C2: for a cache holding exactly `maxSize` unexpired entries (with the
opportunistic cleanup interval-gated off), a `set` of a fresh key evicts
exactly the entry at the least-recently-touched (front) end of the
insertion-ordered store — the position a `get` hit refreshes by moving the
entry to the back — and appends the new record at the most-recently-used
end; every other entry survives in order. -/
theorem cache_lru_eviction (o : ResolvedOptions) (now : Nat) (key : String)
    (value : JSValue) (ttlMs : Int) (s : CacheState)
    (hgate : (now : Int) - (s.lastCleanup : Int) < (o.cleanupInterval : Int))
    (hfresh : key ∉ s.store.map Prod.fst)
    (hfull : s.store.length = o.maxSize)
    (hunexp : ∀ kv ∈ s.store, now < kv.2.expireAt) :
    (cacheSet o now key value ttlMs s).store =
      s.store.tail ++
        [(key, ⟨value, now + (max 0 ttlMs).toNat, estimateSize value⟩)] := by
  have hs := smartCleanup_gated hgate
  have hdel : deleteIfPresent s.store key = s.store :=
    deleteIfPresent_of_not_mem hfresh
  simp only [cacheSet, hs, hdel]
  have hneed : (decide (s.store.length ≥ o.maxSize) ||
      decide (calculateMemoryUsage s.store + estimateSize value >
        o.maxMemoryBytes)) = true := by
    simp [hfull.ge]
  rw [if_pos hneed, setEvictExpired]
  simp only [cleanupExpired_of_unexpired hunexp]
  rw [if_pos (by simp [hfull.ge])]
  have h1 : s.store.length - o.maxSize + 1 = 1 := by omega
  rw [h1, evictLRUGo_one]
  have htail : key ∉ s.store.tail.map Prod.fst :=
    fun hm => hfresh (keys_tail_subset hm)
  rw [jsMapSet_eq_append_of_not_mem _ htail]

/-- Witness for C2 at the spec's own scenario: capacity 2, `set(k1)`,
`set(k2)`, `get(k1)`, then `set(k3)` evicts `k2` while `k1` and `k3`
remain. -/
theorem cache_lru_eviction_witness :
    (cacheSet c2Opts 1003 "k3" (.str "v3") 60000 c2StateBefore).store =
      [("k1", ⟨.str "v1", 61000, 4⟩), ("k3", ⟨.str "v3", 61003, 4⟩)] := by
  have h := cache_lru_eviction c2Opts 1003 "k3" (.str "v3") 60000 c2StateBefore
    (by decide) (by decide) (by decide) (by decide)
  rw [h]
  decide

/-- C4: with the opportunistic cleanup interval-gated off, `get(key)` (i)
misses and leaves the store unchanged when the key is absent; (ii) misses
and removes the entry — the store shrinks by one — when the entry's expiry
timestamp is at or before `now`; and (iii) hits with the stored value when
the expiry timestamp is strictly in the future. -/
theorem cache_ttl_read (o : ResolvedOptions) (now : Nat) (key : String)
    (s : CacheState)
    (hgate : (now : Int) - (s.lastCleanup : Int) < (o.cleanupInterval : Int)) :
    (jsMapGet s.store key = none →
        (cacheGet o now key s).1 = ⟨false, none⟩ ∧
          (cacheGet o now key s).2.store = s.store) ∧
      (∀ rec, jsMapGet s.store key = some rec → rec.expireAt ≤ now →
        (cacheGet o now key s).1 = ⟨false, none⟩ ∧
          (cacheGet o now key s).2.store = jsMapDelete s.store key ∧
          (cacheGet o now key s).2.store.length + 1 = s.store.length) ∧
      (∀ rec, jsMapGet s.store key = some rec → now < rec.expireAt →
        (cacheGet o now key s).1 = ⟨true, some rec.value⟩) := by
  have hs := smartCleanup_gated hgate
  refine ⟨?_, ?_, ?_⟩
  · intro h
    simp [cacheGet, hs, h]
  · intro rec h hexp
    have hmem : key ∈ s.store.map Prod.fst := mem_keys_of_jsMapGet_some h
    simp only [cacheGet, hs, h]
    rw [if_neg (by omega)]
    refine ⟨rfl, rfl, ?_⟩
    exact length_jsMapDelete_of_mem hmem
  · intro rec h hexp
    simp only [cacheGet, hs, h]
    rw [if_pos (by omega)]

/-- Witness for C4 at the spec's own scenario: `set(k, v, ttlMs = 1000)`;
a read 999 ms later hits, a read 1001 ms later misses and the entry is
gone (`size` decreases from 1 to 0). -/
theorem cache_ttl_read_witness :
    (cacheGet defaultOpts 1999 "k" c4State).1 = ⟨true, some (.str "v")⟩ ∧
      (cacheGet defaultOpts 2001 "k" c4State).1 = ⟨false, none⟩ ∧
      (cacheGet defaultOpts 2001 "k" c4State).2.store.length + 1 =
        c4State.store.length := by
  refine ⟨?_, ?_, ?_⟩
  · exact (cache_ttl_read defaultOpts 1999 "k" c4State (by decide)).2.2
      ⟨.str "v", 2000, 2⟩ (by decide) (by decide)
  · exact ((cache_ttl_read defaultOpts 2001 "k" c4State (by decide)).2.1
      ⟨.str "v", 2000, 2⟩ (by decide) (by decide)).1
  · exact ((cache_ttl_read defaultOpts 2001 "k" c4State (by decide)).2.1
      ⟨.str "v", 2000, 2⟩ (by decide) (by decide)).2.2

/-- C9: a `get` is a hit only when the entry's absolute expiry timestamp is
strictly greater than `now` — at `expireAt = now` the read misses and the
entry is removed — and a `set` with `ttlMs <= 0` (clamped to 0) stores
`expireAt = now`, so no read at any later instant can hit it. -/
theorem cache_expiry_boundary :
    (∀ (o : ResolvedOptions) (now : Nat) (key : String) (s : CacheState)
        (rec : CacheRecord),
      (now : Int) - (s.lastCleanup : Int) < (o.cleanupInterval : Int) →
      jsMapGet s.store key = some rec → rec.expireAt = now →
      (cacheGet o now key s).1 = ⟨false, none⟩ ∧
        (cacheGet o now key s).2.store = jsMapDelete s.store key) ∧
      (∀ (o : ResolvedOptions) (now now' : Nat) (key : String) (value : JSValue)
          (ttlMs : Int) (s : CacheState),
        ttlMs ≤ 0 → now ≤ now' →
        (now' : Int) - ((cacheSet o now key value ttlMs s).lastCleanup : Int) <
          (o.cleanupInterval : Int) →
        (cacheGet o now' key (cacheSet o now key value ttlMs s)).1.hit = false) := by
  constructor
  · intro o now key s rec hgate h hexp
    have hs := smartCleanup_gated hgate
    simp only [cacheGet, hs, h]
    rw [if_neg (by omega)]
    exact ⟨rfl, rfl⟩
  · intro o now now' key value ttlMs s httl hmono hgate
    have hzero : (max 0 ttlMs).toNat = 0 := by
      rw [max_eq_left httl]
      rfl
    have hget : jsMapGet (cacheSet o now key value ttlMs s).store key =
        some ⟨value, now + (max 0 ttlMs).toNat, estimateSize value⟩ :=
      jsMapGet_jsMapSet_self _ key _
    have hs := smartCleanup_gated hgate
    simp only [cacheGet, hs, hget]
    rw [if_neg (by simp [hzero]; omega)]

/-- Witness for C9: a read at the exact expiry instant misses and removes
the entry, and after a `set` with `ttlMs = -5` a later read cannot hit. -/
theorem cache_expiry_boundary_witness :
    ((cacheGet defaultOpts 500 "k" c9State).1 = ⟨false, none⟩ ∧
        (cacheGet defaultOpts 500 "k" c9State).2.store =
          jsMapDelete c9State.store "k") ∧
      (cacheGet defaultOpts 600 "k"
        (cacheSet defaultOpts 550 "k" (.num 2) (-5) c9State)).1.hit = false :=
  ⟨cache_expiry_boundary.1 defaultOpts 500 "k" c9State ⟨.num 1, 500, 8⟩
      (by decide) (by decide) (by decide),
    cache_expiry_boundary.2 defaultOpts 550 600 "k" (.num 2) (-5) c9State
      (by decide) (by decide) (by decide)⟩

/-! ## Claim theorems for the plugin registry -/

/-- C8: `getPlugins` returns the registered plugins sorted ascending by
numeric priority, the sort is stable (for every priority value, the
subsequence of plugins holding it equals the original registration-order
subsequence), and registering priorities [3, 1, 2] yields the order
[1, 2, 3]. -/
theorem registry_priority_order (plugins : List PluginC) :
    (getPlugins plugins).Pairwise (fun a b => a.priority ≤ b.priority) ∧
      (∀ q : Int,
        (getPlugins plugins).filter (fun p => p.priority == q) =
          plugins.filter (fun p => p.priority == q)) ∧
      getPlugins [⟨"a", 3⟩, ⟨"b", 1⟩, ⟨"c", 2⟩] =
        [⟨"b", 1⟩, ⟨"c", 2⟩, ⟨"a", 3⟩] := by
  have htrans : ∀ a b c : PluginC,
      (fun a b : PluginC => decide (a.priority ≤ b.priority)) a b →
      (fun a b : PluginC => decide (a.priority ≤ b.priority)) b c →
      (fun a b : PluginC => decide (a.priority ≤ b.priority)) a c := by
    intro a b c h1 h2
    simp only [decide_eq_true_eq] at *
    omega
  have htotal : ∀ a b : PluginC,
      ((fun a b : PluginC => decide (a.priority ≤ b.priority)) a b ||
        (fun a b : PluginC => decide (a.priority ≤ b.priority)) b a) = true := by
    intro a b
    simp only [Bool.or_eq_true, decide_eq_true_eq]
    omega
  refine ⟨?_, ?_, ?_⟩
  · have h := List.sorted_mergeSort htrans htotal plugins
    exact h.imp (fun hab => by simpa using hab)
  · intro q
    have hall : ∀ x ∈ plugins.filter (fun p => p.priority == q),
        x.priority = q := by
      intro x hx
      simpa using (List.mem_filter.mp hx).2
    have hpair : (plugins.filter (fun p => p.priority == q)).Pairwise
        (fun a b : PluginC => decide (a.priority ≤ b.priority)) := by
      apply List.pairwise_of_forall_mem_list
      intro a ha b hb
      simp [hall a ha, hall b hb]
    have hstab := List.sublist_mergeSort htrans htotal hpair
      (List.filter_sublist plugins)
    have hf : List.Sublist (plugins.filter (fun p => p.priority == q))
        ((getPlugins plugins).filter (fun p => p.priority == q)) := by
      have hh := hstab.filter (fun p => p.priority == q)
      rwa [List.filter_eq_self.mpr
        (fun a ha => (List.mem_filter.mp ha).2)] at hh
    have hlen : ((getPlugins plugins).filter
        (fun p => p.priority == q)).length =
        (plugins.filter (fun p => p.priority == q)).length :=
      ((List.mergeSort_perm plugins _).filter _).length_eq
    exact (hf.eq_of_length hlen.symm).symm
  · simp +decide [getPlugins, List.mergeSort, List.splitInTwo, List.merge]

/-! ## Claim theorem for orchestrator failure isolation (spec-modelled) -/

/-- C3 (spec-modelled): for every plugin set in which up to N−1 of the N
plugins' `search` calls throw or reject, the orchestrator completes
normally (`Except.ok`, never an escaping exception) and returns the
surviving plugins' results, with `total` equal to the sum of the
successful plugins' result counts.  Modelled from the spec because the
`SearchService` implementation file is not among the provided sources. -/
theorem search_failure_isolation (runs : List PluginRun)
    (hfail : runs.countP
        (fun r => match r with | .err _ => true | _ => false) < runs.length) :
    ∃ resp : SearchResponseM,
      searchServiceSearch runs = Except.ok resp ∧
        resp.total = successTotal runs := by
  refine ⟨⟨((runs.map runOutcome).flatten).length, (runs.map runOutcome).flatten⟩,
    rfl, ?_⟩
  simp only [successTotal, List.length_flatten, List.map_map]
  rfl

/-- Witness for C3 at the spec's own scenario: three plugins, the second of
which throws; the call returns normally and `total = 1 + 2`. -/
theorem search_failure_isolation_witness :
    ([PluginRun.ok [1], PluginRun.err "boom", PluginRun.ok [2, 3]].countP
        (fun r => match r with | .err _ => true | _ => false) < 3) ∧
      ∃ resp : SearchResponseM,
        searchServiceSearch [.ok [1], .err "boom", .ok [2, 3]] =
            Except.ok resp ∧
          resp.total = successTotal [.ok [1], .err "boom", .ok [2, 3]] :=
  ⟨by decide,
    search_failure_isolation [.ok [1], .err "boom", .ok [2, 3]] (by decide)⟩

end PanHub
